import Mathlib

set_option maxHeartbeats 1000000

/-! Verification of the diff/hunk core of `src/difference.rs` (dotter).

The Rust source is shallowly embedded: the external type `diff::Result<String>`
becomes the inductive type `DiffRes`; the imperative loop of `hunkify_diff`
becomes a left fold over the list of loop indices with an explicit state
record; the `unwrap()` in the backward-window branch is modelled by a
`panicked` flag (a panic aborts the loop, so the step function freezes once
the flag is set).  Fallible collaborators of `generate_diff` (the filesystem,
the handlebars renderer, the line-diff primitive) are passed as oracle
functions, and `print_diff` is modelled as the sequence of `print_hunk`
invocations it performs (hunk passed together with the column-width argument).
-/

/-- Rust `diff::Result<String>`: `Left` is a line only present in the left
document (removed), `Right` only in the right document (added), `Both` an
unchanged line (carried once per document). -/
inductive DiffRes where
  | Left : String → DiffRes
  | Right : String → DiffRes
  | Both : String → String → DiffRes
deriving DecidableEq, Repr

/-- Rust `pub type Diff = Vec<diff::Result<String>>`. -/
abbrev Diff := List DiffRes

/-- One element of Rust `pub type HunkDiff = Vec<(usize, usize, Diff)>`:
`(start_left, start_right, operations)`. -/
abbrev Hunk := Nat × Nat × List DiffRes

/-- Rust `fn is_different`: `!matches!(diff, diff::Result::Both(..))`. -/
def is_different : DiffRes → Bool
  | DiffRes.Both _ _ => false
  | _ => true

/-- Rust `pub fn diff_nonempty`: scans the diff and returns `true` at the
first operation that is not `Both`, `false` if none is found. -/
def diff_nonempty : Diff → Bool
  | [] => false
  | line :: rest =>
    match line with
    | DiffRes.Both _ _ => diff_nonempty rest
    | _ => true

/-- The mutable state of the loop inside `fn hunkify_diff`: the output vector
`hunks`, the two line counters, the optional in-progress hunk, and a flag
recording whether the `unwrap()` in the backward-window branch was reached
with no hunk in progress (which would panic in Rust). -/
structure HunkifyState where
  hunks : List Hunk
  left_line_number : Nat
  right_line_number : Nat
  current_hunk : Option Hunk
  panicked : Bool

/-- State before the first loop iteration of `hunkify_diff`. -/
def initHunkifyState : HunkifyState :=
  { hunks := [], left_line_number := 0, right_line_number := 0,
    current_hunk := none, panicked := false }

/-- One iteration (`for position in 0..diff.len()`) of the loop in
`fn hunkify_diff`.  The Rust forward window
`diff[position..=min(position + extra_lines, diff.len() - 1)]` holds the
operations at indices `position .. min(position + extra_lines, len - 1)`
inclusive, which for `position < len` is exactly
`(diff.drop position).take (extra_lines + 1)`; the backward window
`diff[position.saturating_sub(extra_lines)..position]` is
`(diff.take position).drop (position - extra_lines)` (truncated `Nat`
subtraction is `saturating_sub`).  A panic aborts the loop, hence the freeze
on `panicked`.  The `none` case of the lookup is unreachable because the
loop only visits `position < diff.length`. -/
def hunkifyStep (diff : Diff) (extra_lines : Nat) (s : HunkifyState) (position : Nat) :
    HunkifyState :=
  if s.panicked then s else
  match diff[position]? with
  | none => s
  | some line =>
    match line with
    | DiffRes.Left _ =>
      let left := s.left_line_number + 1
      match s.current_hunk with
      | none =>
        { s with left_line_number := left,
                 current_hunk := some (left, s.right_line_number, [line]) }
      | some (l, r, ops) =>
        { s with left_line_number := left,
                 current_hunk := some (l, r, ops ++ [line]) }
    | DiffRes.Right _ =>
      let right := s.right_line_number + 1
      match s.current_hunk with
      | none =>
        { s with right_line_number := right,
                 current_hunk := some (s.left_line_number, right, [line]) }
      | some (l, r, ops) =>
        { s with right_line_number := right,
                 current_hunk := some (l, r, ops ++ [line]) }
    | DiffRes.Both _ _ =>
      let left := s.left_line_number + 1
      let right := s.right_line_number + 1
      if ((diff.drop position).take (extra_lines + 1)).any is_different then
        match s.current_hunk with
        | none =>
          { s with left_line_number := left, right_line_number := right,
                   current_hunk := some (left, right, [line]) }
        | some (l, r, ops) =>
          { s with left_line_number := left, right_line_number := right,
                   current_hunk := some (l, r, ops ++ [line]) }
      else if ((diff.take position).drop (position - extra_lines)).any is_different then
        match s.current_hunk with
        | some (l, r, ops) =>
          { s with left_line_number := left, right_line_number := right,
                   current_hunk := some (l, r, ops ++ [line]) }
        | none =>
          { s with left_line_number := left, right_line_number := right,
                   panicked := true }
      else
        match s.current_hunk with
        | some hunk =>
          { s with left_line_number := left, right_line_number := right,
                   hunks := s.hunks ++ [hunk], current_hunk := none }
        | none =>
          { s with left_line_number := left, right_line_number := right }

/-- The state after the whole loop of `fn hunkify_diff` has run. -/
def hunkifyLoopState (diff : Diff) (extra_lines : Nat) : HunkifyState :=
  (List.range diff.length).foldl (hunkifyStep diff extra_lines) initHunkifyState

/-- Rust `fn hunkify_diff`: run the loop, then push the still-open hunk, if
any, onto the output. -/
def hunkify_diff (diff : Diff) (extra_lines : Nat) : List Hunk :=
  match (hunkifyLoopState diff extra_lines).current_hunk with
  | some hunk => (hunkifyLoopState diff extra_lines).hunks ++ [hunk]
  | none => (hunkifyLoopState diff extra_lines).hunks

/-- Rust `file_state::TemplateDescription::target`, of which `generate_diff`
only uses the `target` path field. -/
structure TemplateTarget where
  target : String

/-- Rust `file_state::TemplateDescription` as used by `generate_diff`: the
source path, the target description and the action application.
`apply_actions` lives outside `src/`; modelled from the spec: the template
description carries an ordered list of pre/post-processing text actions,
assumed to be total functions on strings, so their composite is modelled as
one total function. -/
structure TemplateDescription where
  source : String
  target : TemplateTarget
  apply_actions : String → String

/-- The error taxonomy of `generate_diff`: in Rust an `anyhow::Error` made of
an underlying cause plus the `.context(...)` message attached at the failing
call; the first component records the context string, the second the cause. -/
inductive DiffError where
  | IoError : String → String → DiffError
  | RenderError : String → String → DiffError
deriving DecidableEq, Repr

/-- Rust `pub fn generate_diff`.  The external collaborators are oracles:
`read_to_string` models `fs::read_to_string` (path to contents or I/O
error), `render_template` models `handlebars.render_template` with the fixed
variable table already applied, and `lines` models `diff::lines`.  Each `?`
in the source propagates the error with its `.context(...)` string. -/
def generate_diff (read_to_string : String → Except String String)
    (render_template : String → Except String String)
    (lines : String → String → Diff)
    (template : TemplateDescription) : Except DiffError Diff :=
  match read_to_string template.source with
  | Except.error e => Except.error (DiffError.IoError "read template source file" e)
  | Except.ok file_contents =>
    let file_contents := template.apply_actions file_contents
    match render_template file_contents with
    | Except.error e => Except.error (DiffError.RenderError "render template" e)
    | Except.ok rendered =>
      match read_to_string template.target.target with
      | Except.error e => Except.error (DiffError.IoError "read template target file" e)
      | Except.ok target_contents =>
        Except.ok (lines target_contents rendered)

/-- Rust `pub fn print_diff`, modelled as the sequence of `print_hunk` calls
it makes: each call is recorded as the hunk passed (anchors and operations;
`Vec::pop` takes the last hunk, the others are printed first) together with
the `max_digits` width argument; `none` models the `expect("at least one
hunk")` panic on an empty hunk list.  `Nat.repr` is decimal, matching
`usize::to_string`. -/
def print_diff (diff : Diff) (extra_lines : Nat) : Option (List (Hunk × Nat)) :=
  match (hunkify_diff diff extra_lines).getLast? with
  | none => none
  | some last_hunk =>
    some (((hunkify_diff diff extra_lines).dropLast.map
        (fun hunk =>
          (hunk, (Nat.repr (max last_hunk.1 last_hunk.2.1 + last_hunk.2.2.length)).length))) ++
      [(last_hunk, (Nat.repr (max last_hunk.1 last_hunk.2.1 + last_hunk.2.2.length)).length)])

/-! Specification-side vocabulary used to state properties of
`hunkify_diff`.  These definitions are not part of the embedding of the
source; they name positions, windows and runs so the theorems can speak
about them. -/

/-- Operations that increment the left line counter (`Left` and `Both`). -/
def is_left_line : DiffRes → Bool
  | DiffRes.Right _ => false
  | _ => true

/-- Operations that increment the right line counter (`Right` and `Both`). -/
def is_right_line : DiffRes → Bool
  | DiffRes.Left _ => false
  | _ => true

/-- Number of left-document lines among the operations of `D`. -/
def leftCount (D : List DiffRes) : Nat := D.countP is_left_line

/-- Number of right-document lines among the operations of `D`. -/
def rightCount (D : List DiffRes) : Nat := D.countP is_right_line

/-- The retention condition of `hunkify_diff` at position `p`: some operation
in the forward window (the `extra_lines + 1` operations starting at `p`) or
in the backward window (the up to `extra_lines` operations just before `p`)
is a change.  For a `Left`/`Right` operation this is always true (the
operation itself heads the forward window); for a `Both` operation it is
exactly the disjunction of the two `if` conditions in the source. -/
def keepAt (D : Diff) (c : Nat) (p : Nat) : Bool :=
  ((D.drop p).take (c + 1)).any is_different
  || ((D.take p).drop (p - c)).any is_different

/-- Positions below `p` that `hunkify_diff` retains. -/
def keptIdxUpTo (D : Diff) (c : Nat) (p : Nat) : List Nat :=
  (List.range p).filter (keepAt D c)

/-- Whether some operation of `D` at an index in `[p, p + bound)` is a
change, expressed through the total lookup. -/
def changeAt (D : Diff) (j : Nat) : Bool :=
  match D[j]? with
  | some op => is_different op
  | none => false

/-- The hunk built from the run of consecutive retained positions `q..r`:
anchors are the line counters at the moment the hunk was opened (counters
after the increments of the operation at `q`), operations are the slice
`D[q..=r]`. -/
def hunkFor (D : Diff) (qr : Nat × Nat) : Hunk :=
  (leftCount (D.take (qr.1 + 1)), rightCount (D.take (qr.1 + 1)),
   (D.take (qr.2 + 1)).drop qr.1)

/-- All positions covered by a list of runs `(q, r)` (each run is the
inclusive index interval `q..r`). -/
def runsJoin (runs : List (Nat × Nat)) : List Nat :=
  runs.flatMap (fun qr => List.range' qr.1 (qr.2 + 1 - qr.1))

/-- Position `p` opens a hunk: it is retained and the previous position is
not (or there is no previous position). -/
def isStart (D : Diff) (c : Nat) (p : Nat) : Bool :=
  keepAt D c p && (decide (p = 0) || !keepAt D c (p - 1))

/-- Number of hunk-opening positions below `n`. -/
def countStarts (D : Diff) (c : Nat) (n : Nat) : Nat :=
  ((Finset.range n).filter (fun p => isStart D c p = true)).card

/-- First index at or after `p` satisfying `f`, searched with explicit
fuel (returns the end of the fuel range when nothing is found). -/
def findIdxFromAux (f : Nat → Bool) : Nat → Nat → Nat
  | 0, p => p
  | fuel + 1, p => if f p then p else findIdxFromAux f fuel (p + 1)

/-- First index in `[p, bound)` satisfying `f` (or a junk value out of
range when there is none). -/
def findIdxFrom (f : Nat → Bool) (bound p : Nat) : Nat :=
  findIdxFromAux f (bound - p) p

/-- Concatenation of the operation sequences of a list of hunks. -/
def joinOps (hs : List Hunk) : List DiffRes := (hs.map (fun h => h.2.2)).flatten

/-- The worked scenario of the spec:
`[Unchanged("a"), Removed("b"), Unchanged("c"), Unchanged("d"),
Unchanged("e"), Added("f")]`. -/
def exampleDiff : Diff :=
  [DiffRes.Both "a" "a", DiffRes.Left "b", DiffRes.Both "c" "c",
   DiffRes.Both "d" "d", DiffRes.Both "e" "e", DiffRes.Right "f"]

/-- Description of the closed hunks and the in-progress hunk after the loop
of `hunkify_diff` has processed positions `0, …, p - 1`: there is a list of
disjoint, ordered runs of consecutive retained positions covering exactly
the retained positions below `p`, one run per hunk-opening position, such
that the closed hunks are the hunks of all runs except a still-open last run
ending at `p - 1`, which is the in-progress hunk. -/
def RunsInv (D : Diff) (c : Nat) (p : Nat) (hunks : List Hunk) (cur : Option Hunk) : Prop :=
  ∃ runs : List (Nat × Nat),
    runsJoin runs = keptIdxUpTo D c p ∧
    List.Pairwise (fun a b => a.2 + 1 < b.1) runs ∧
    (∀ qr ∈ runs, qr.1 ≤ qr.2 ∧ qr.2 < p) ∧
    runs.length = countStarts D c p ∧
    ((cur = none ∧ hunks = runs.map (hunkFor D) ∧
        ∀ qr ∈ runs, qr.2 + 1 < p) ∨
     (∃ runs' q, runs = runs' ++ [(q, p - 1)] ∧ 1 ≤ p ∧
        cur = some (hunkFor D (q, p - 1)) ∧
        hunks = runs'.map (hunkFor D)))

/-- Invariant of the `hunkify_diff` loop after the iterations for positions
`0, …, p - 1` have run: the counters count the left/right lines among the
first `p` operations; no panic has occurred; and the hunks are described by
a list of runs of retained positions. -/
def MasterInv (D : Diff) (c : Nat) (p : Nat) (s : HunkifyState) : Prop :=
  s.left_line_number = leftCount (D.take p) ∧
  s.right_line_number = rightCount (D.take p) ∧
  s.panicked = false ∧
  RunsInv D c p s.hunks s.current_hunk

/-! Basic list helpers about prefixes, slices and window membership. -/

theorem take_succ_of_lt {α : Type} (l : List α) {p : Nat} (hp : p < l.length) :
    l.take (p + 1) = l.take p ++ [l[p]] := by
  rw [List.take_succ]
  simp [List.getElem?_eq_getElem hp]

theorem slice_snoc {α : Type} (l : List α) {q p : Nat} (hq : q ≤ p) (hp : p < l.length) :
    (l.take (p + 1)).drop q = (l.take p).drop q ++ [l[p]] := by
  rw [take_succ_of_lt l hp]
  rw [List.drop_append_of_le_length]
  rw [List.length_take]
  omega

theorem slice_nil {α : Type} (l : List α) (p : Nat) : (l.take p).drop p = [] := by
  apply List.drop_eq_nil_of_le
  rw [List.length_take]
  omega

theorem changeAt_iff {D : Diff} {j : Nat} :
    changeAt D j = true ↔ ∃ op, D[j]? = some op ∧ is_different op = true := by
  unfold changeAt
  cases h : D[j]? with
  | none => simp
  | some op => simp

theorem changeAt_lt_length {D : Diff} {j : Nat} (h : changeAt D j = true) : j < D.length := by
  rw [changeAt_iff] at h
  obtain ⟨op, hop, _⟩ := h
  exact (List.getElem?_eq_some_iff.mp hop).1

theorem changeAt_of_getElem {D : Diff} {p : Nat} (hp : p < D.length)
    (h : is_different D[p] = true) : changeAt D p = true := by
  rw [changeAt_iff]
  exact ⟨D[p], List.getElem?_eq_getElem hp, h⟩

theorem any_take_drop_iff (D : Diff) (lo hi : Nat) :
    ((D.take hi).drop lo).any is_different = true ↔
      ∃ j, lo ≤ j ∧ j < hi ∧ changeAt D j = true := by
  rw [List.any_eq_true]
  constructor
  · rintro ⟨x, hx, hdx⟩
    rw [List.mem_iff_getElem?] at hx
    obtain ⟨k, hk⟩ := hx
    rw [List.getElem?_drop] at hk
    rw [List.getElem?_take] at hk
    by_cases hlt : lo + k < hi
    · rw [if_pos hlt] at hk
      refine ⟨lo + k, by omega, hlt, ?_⟩
      unfold changeAt
      rw [hk]
      exact hdx
    · rw [if_neg hlt] at hk
      cases hk
  · rintro ⟨j, hlo, hhi, hcj⟩
    rw [changeAt_iff] at hcj
    obtain ⟨op, hop, hdop⟩ := hcj
    refine ⟨op, ?_, hdop⟩
    rw [List.mem_iff_getElem?]
    refine ⟨j - lo, ?_⟩
    rw [List.getElem?_drop, List.getElem?_take]
    have hj : lo + (j - lo) = j := by omega
    rw [hj, if_pos hhi]
    exact hop

theorem any_drop_take_iff (D : Diff) (p m : Nat) :
    ((D.drop p).take m).any is_different = true ↔
      ∃ j, p ≤ j ∧ j < p + m ∧ changeAt D j = true := by
  rw [List.any_eq_true]
  constructor
  · rintro ⟨x, hx, hdx⟩
    rw [List.mem_iff_getElem?] at hx
    obtain ⟨k, hk⟩ := hx
    rw [List.getElem?_take] at hk
    by_cases hlt : k < m
    · rw [if_pos hlt, List.getElem?_drop] at hk
      refine ⟨p + k, by omega, by omega, ?_⟩
      unfold changeAt
      rw [hk]
      exact hdx
    · rw [if_neg hlt] at hk
      cases hk
  · rintro ⟨j, hp, hm, hcj⟩
    rw [changeAt_iff] at hcj
    obtain ⟨op, hop, hdop⟩ := hcj
    refine ⟨op, ?_, hdop⟩
    rw [List.mem_iff_getElem?]
    refine ⟨j - p, ?_⟩
    rw [List.getElem?_take, if_pos (by omega), List.getElem?_drop]
    have hj : p + (j - p) = j := by omega
    rw [hj]
    exact hop

theorem keepAt_iff (D : Diff) (c p : Nat) :
    keepAt D c p = true ↔
      (∃ j, p ≤ j ∧ j < p + (c + 1) ∧ changeAt D j = true) ∨
      (∃ j, p - c ≤ j ∧ j < p ∧ changeAt D j = true) := by
  unfold keepAt
  rw [Bool.or_eq_true, any_drop_take_iff, any_take_drop_iff]

theorem keepAt_of_changeAt {D : Diff} {c p : Nat} (h : changeAt D p = true) :
    keepAt D c p = true := by
  rw [keepAt_iff]
  exact Or.inl ⟨p, le_refl p, by omega, h⟩

theorem keepAt_forward {D : Diff} {c x j : Nat} (hxj : x ≤ j) (hjc : j ≤ x + c)
    (hc : changeAt D j = true) : keepAt D c x = true := by
  rw [keepAt_iff]
  exact Or.inl ⟨j, hxj, by omega, hc⟩

theorem keepAt_mono {D : Diff} {c1 c2 p : Nat} (h : c1 ≤ c2)
    (hk : keepAt D c1 p = true) : keepAt D c2 p = true := by
  rw [keepAt_iff] at hk ⊢
  rcases hk with ⟨j, h1, h2, h3⟩ | ⟨j, h1, h2, h3⟩
  · exact Or.inl ⟨j, h1, by omega, h3⟩
  · exact Or.inr ⟨j, by omega, h2, h3⟩

theorem keepAt_backward_prev {D : Diff} {c p : Nat}
    (h : ((D.take p).drop (p - c)).any is_different = true) :
    1 ≤ p ∧ keepAt D c (p - 1) = true := by
  rw [any_take_drop_iff] at h
  obtain ⟨j, h1, h2, h3⟩ := h
  refine ⟨by omega, ?_⟩
  rcases Nat.lt_or_ge j (p - 1) with hj | hj
  · rw [keepAt_iff]
    exact Or.inr ⟨j, by omega, hj, h3⟩
  · have hje : j = p - 1 := by omega
    rw [hje] at h3
    exact keepAt_of_changeAt h3

theorem mem_keptIdxUpTo {D : Diff} {c p j : Nat} :
    j ∈ keptIdxUpTo D c p ↔ j < p ∧ keepAt D c j = true := by
  unfold keptIdxUpTo
  rw [List.mem_filter, List.mem_range]

theorem mem_runsJoin {runs : List (Nat × Nat)} {j : Nat} :
    j ∈ runsJoin runs ↔ ∃ qr ∈ runs, qr.1 ≤ j ∧ j ≤ qr.2 := by
  unfold runsJoin
  rw [List.mem_flatMap]
  constructor
  · rintro ⟨qr, hqr, hj⟩
    rw [List.mem_range'_1] at hj
    exact ⟨qr, hqr, hj.1, by omega⟩
  · rintro ⟨qr, hqr, h1, h2⟩
    refine ⟨qr, hqr, ?_⟩
    rw [List.mem_range'_1]
    omega

/-! Helpers describing how the specification-side quantities evolve when one
more position is processed. -/

theorem keptIdxUpTo_succ (D : Diff) (c p : Nat) :
    keptIdxUpTo D c (p + 1) =
      keptIdxUpTo D c p ++ (if keepAt D c p = true then [p] else []) := by
  unfold keptIdxUpTo
  rw [List.range_succ, List.filter_append]
  congr 1
  rw [List.filter_cons]
  by_cases h : keepAt D c p = true
  · rw [if_pos h, if_pos h]
    rfl
  · rw [if_neg h, if_neg h]
    rfl

theorem countStarts_succ (D : Diff) (c n : Nat) :
    countStarts D c (n + 1) =
      countStarts D c n + (if isStart D c n = true then 1 else 0) := by
  unfold countStarts
  rw [Finset.range_succ, Finset.filter_insert]
  by_cases h : isStart D c n = true
  · rw [if_pos h, if_pos h, Finset.card_insert_of_not_mem]
    simp
  · rw [if_neg h, if_neg h]
    omega

theorem leftCount_snoc (l : List DiffRes) (x : DiffRes) :
    leftCount (l ++ [x]) = leftCount l + (if is_left_line x = true then 1 else 0) := by
  unfold leftCount
  rw [List.countP_append, List.countP_cons, List.countP_nil]
  simp

theorem rightCount_snoc (l : List DiffRes) (x : DiffRes) :
    rightCount (l ++ [x]) = rightCount l + (if is_right_line x = true then 1 else 0) := by
  unfold rightCount
  rw [List.countP_append, List.countP_cons, List.countP_nil]
  simp

theorem leftCount_take_succ {D : Diff} {p : Nat} (hp : p < D.length) :
    leftCount (D.take (p + 1)) =
      leftCount (D.take p) + (if is_left_line D[p] = true then 1 else 0) := by
  rw [take_succ_of_lt D hp, leftCount_snoc]

theorem rightCount_take_succ {D : Diff} {p : Nat} (hp : p < D.length) :
    rightCount (D.take (p + 1)) =
      rightCount (D.take p) + (if is_right_line D[p] = true then 1 else 0) := by
  rw [take_succ_of_lt D hp, rightCount_snoc]

theorem hunkFor_single {D : Diff} {p : Nat} (hp : p < D.length) :
    hunkFor D (p, p) =
      (leftCount (D.take (p + 1)), rightCount (D.take (p + 1)), [D[p]]) := by
  unfold hunkFor
  rw [slice_snoc D (le_refl p) hp, slice_nil]
  rfl

theorem hunkFor_extend {D : Diff} {q p : Nat} (hp1 : 1 ≤ p) (hq : q ≤ p)
    (hp : p < D.length) :
    hunkFor D (q, p) =
      (leftCount (D.take (q + 1)), rightCount (D.take (q + 1)),
       (D.take (p - 1 + 1)).drop q ++ [D[p]]) := by
  unfold hunkFor
  have h1 : p - 1 + 1 = p := by omega
  rw [h1, slice_snoc D hq hp]

theorem runsJoin_append (runs : List (Nat × Nat)) (qr : Nat × Nat) :
    runsJoin (runs ++ [qr]) = runsJoin runs ++ List.range' qr.1 (qr.2 + 1 - qr.1) := by
  unfold runsJoin
  rw [List.flatMap_append]
  simp

theorem range'_extend {q p : Nat} (hq : q ≤ p) (hp : 1 ≤ p) :
    List.range' q (p - 1 + 1 - q) ++ [p] = List.range' q (p + 1 - q) := by
  have h1 : p - 1 + 1 = p := by omega
  rw [h1]
  have h2 : p + 1 - q = (p - q) + 1 := by omega
  rw [h2, List.range'_1_concat]
  have h3 : q + (p - q) = p := by omega
  rw [h3]

theorem endgap_no_prev {D : Diff} {c p : Nat} {runs : List (Nat × Nat)}
    (hjoin : runsJoin runs = keptIdxUpTo D c p)
    (hend : ∀ qr ∈ runs, qr.2 + 1 < p) (hp : 1 ≤ p) :
    keepAt D c (p - 1) = false := by
  by_contra h
  rw [Bool.not_eq_false] at h
  have hmem : p - 1 ∈ keptIdxUpTo D c p := mem_keptIdxUpTo.mpr ⟨by omega, h⟩
  rw [← hjoin] at hmem
  obtain ⟨qr, hqr, h1, h2⟩ := mem_runsJoin.mp hmem
  have := hend qr hqr
  omega

theorem prev_kept_of_last_run {D : Diff} {c p : Nat} {runs' : List (Nat × Nat)} {q : Nat}
    (hjoin : runsJoin (runs' ++ [(q, p - 1)]) = keptIdxUpTo D c p)
    (hq : q ≤ p - 1) :
    keepAt D c (p - 1) = true := by
  have hmem : p - 1 ∈ runsJoin (runs' ++ [(q, p - 1)]) :=
    mem_runsJoin.mpr ⟨(q, p - 1), by simp, hq, le_refl _⟩
  rw [hjoin] at hmem
  exact (mem_keptIdxUpTo.mp hmem).2

theorem loopState_succ (D : Diff) (c p : Nat) :
    (List.range (p + 1)).foldl (hunkifyStep D c) initHunkifyState =
      hunkifyStep D c ((List.range p).foldl (hunkifyStep D c) initHunkifyState) p := by
  rw [List.range_succ, List.foldl_append]
  rfl

/-! Transition lemmas for the run description of the loop state: retaining a
position either opens a run or extends the last run; dropping a position
closes the open run; the backward-window branch can never be reached with no
hunk in progress. -/

theorem RunsInv_open {D : Diff} {c p : Nat} (hp : p < D.length)
    (hkeep : keepAt D c p = true) {hunks : List Hunk}
    (h : RunsInv D c p hunks none) :
    RunsInv D c (p + 1) hunks
      (some (leftCount (D.take (p + 1)), rightCount (D.take (p + 1)), [D[p]])) := by
  obtain ⟨runs, hjoin, hpair, hbounds, hlen, hdisj⟩ := h
  rcases hdisj with ⟨_, hhunks, hend⟩ | ⟨runs', q, hreq, hp1, hcur, hhunks⟩
  · refine ⟨runs ++ [(p, p)], ?_, ?_, ?_, ?_, ?_⟩
    · rw [runsJoin_append, keptIdxUpTo_succ, hjoin, if_pos hkeep]
      simp
    · rw [List.pairwise_append]
      refine ⟨hpair, by simp, ?_⟩
      intro a ha b hb
      rw [List.mem_singleton] at hb
      subst hb
      exact hend a ha
    · intro qr hqr
      rcases List.mem_append.mp hqr with hin | hin
      · have := hbounds qr hin
        exact ⟨this.1, by omega⟩
      · rw [List.mem_singleton] at hin
        subst hin
        exact ⟨le_refl _, by omega⟩
    · rw [List.length_append, hlen, countStarts_succ]
      have hstart : isStart D c p = true := by
        unfold isStart
        rw [hkeep]
        by_cases hz : p = 0
        · subst hz
          simp
        · have hprev : keepAt D c (p - 1) = false := endgap_no_prev hjoin hend (by omega)
          rw [hprev]
          simp
      rw [if_pos hstart]
      simp
    · right
      refine ⟨runs, p, rfl, by omega, ?_, hhunks⟩
      show _ = some (hunkFor D (p, p))
      rw [hunkFor_single hp]
  · exact Option.noConfusion hcur

theorem RunsInv_cont {D : Diff} {c p : Nat} (hp : p < D.length)
    (hkeep : keepAt D c p = true) {hunks : List Hunk} {l r : Nat}
    {ops : List DiffRes} (h : RunsInv D c p hunks (some (l, r, ops))) :
    RunsInv D c (p + 1) hunks (some (l, r, ops ++ [D[p]])) := by
  obtain ⟨runs, hjoin, hpair, hbounds, hlen, hdisj⟩ := h
  rcases hdisj with ⟨hcur, _, _⟩ | ⟨runs', q, hreq, hp1, hcur, hhunks⟩
  · exact Option.noConfusion hcur
  · rw [Option.some_inj] at hcur
    have hqb := hbounds (q, p - 1) (by rw [hreq]; simp)
    have hq : q ≤ p - 1 := hqb.1
    refine ⟨runs' ++ [(q, p)], ?_, ?_, ?_, ?_, ?_⟩
    · rw [runsJoin_append, keptIdxUpTo_succ, ← hjoin, hreq, runsJoin_append,
        if_pos hkeep, List.append_assoc]
      congr 1
      exact (range'_extend (by omega) hp1).symm
    · rw [hreq] at hpair
      rw [List.pairwise_append] at hpair ⊢
      obtain ⟨hp', _, hrel⟩ := hpair
      refine ⟨hp', by simp, ?_⟩
      intro a ha b hb
      rw [List.mem_singleton] at hb
      subst hb
      exact hrel a ha (q, p - 1) (by simp)
    · intro qr hqr
      rcases List.mem_append.mp hqr with hin | hin
      · have := hbounds qr (by rw [hreq]; exact List.mem_append_left _ hin)
        exact ⟨this.1, by omega⟩
      · rw [List.mem_singleton] at hin
        subst hin
        exact ⟨by omega, by omega⟩
    · rw [hreq, List.length_append] at hlen
      rw [List.length_append, countStarts_succ]
      have hstart : isStart D c p = false := by
        unfold isStart
        have hprev : keepAt D c (p - 1) = true :=
          prev_kept_of_last_run (hreq ▸ hjoin) hq
        rw [hprev]
        have hz : decide (p = 0) = false := by
          rw [decide_eq_false_iff_not]
          omega
        rw [hz]
        simp
      rw [hstart]
      simp only [Bool.false_eq_true, if_false, List.length_singleton] at hlen ⊢
      omega
    · right
      refine ⟨runs', q, rfl, by omega, ?_, hhunks⟩
      show _ = some (hunkFor D (q, p))
      rw [Option.some_inj, hunkFor_extend hp1 (by omega) hp]
      rw [hunkFor] at hcur
      rw [Prod.ext_iff] at hcur
      obtain ⟨h1, h23⟩ := hcur
      rw [Prod.ext_iff] at h23
      obtain ⟨h2, h3⟩ := h23
      simp only at h1 h2 h3
      rw [Prod.ext_iff]
      refine ⟨h1, ?_⟩
      rw [Prod.ext_iff]
      exact ⟨h2, by rw [h3]⟩

theorem RunsInv_drop {D : Diff} {c p : Nat}
    (hkeep : keepAt D c p = false) {hunks : List Hunk} {cur : Option Hunk}
    (h : RunsInv D c p hunks cur) :
    RunsInv D c (p + 1) (hunks ++ cur.toList) none := by
  obtain ⟨runs, hjoin, hpair, hbounds, hlen, hdisj⟩ := h
  refine ⟨runs, ?_, hpair, ?_, ?_, ?_⟩
  · rw [keptIdxUpTo_succ, hkeep]
    simp [hjoin]
  · intro qr hqr
    have := hbounds qr hqr
    exact ⟨this.1, by omega⟩
  · rw [countStarts_succ]
    have hstart : isStart D c p = false := by
      unfold isStart
      rw [hkeep]
      rfl
    rw [hstart]
    simp [hlen]
  · left
    refine ⟨rfl, ?_, ?_⟩
    · rcases hdisj with ⟨hcur, hhunks, _⟩ | ⟨runs', q, hreq, hp1, hcur, hhunks⟩
      · rw [hcur]
        simp [hhunks]
      · rw [hcur, hhunks, hreq, List.map_append]
        rfl
    · intro qr hqr
      have := hbounds qr hqr
      omega

theorem RunsInv_backward_none {D : Diff} {c p : Nat} {hunks : List Hunk}
    (hback : ((D.take p).drop (p - c)).any is_different = true)
    (h : RunsInv D c p hunks none) : False := by
  obtain ⟨runs, hjoin, _, _, _, hdisj⟩ := h
  obtain ⟨hp1, hprev⟩ := keepAt_backward_prev hback
  rcases hdisj with ⟨_, _, hend⟩ | ⟨runs', q, hreq, _, hcur, _⟩
  · have hfalse := endgap_no_prev hjoin hend hp1
    rw [hprev] at hfalse
    exact Bool.noConfusion hfalse
  · exact Option.noConfusion hcur

/-- One loop iteration preserves the master invariant. -/
theorem masterInv_step {D : Diff} {c p : Nat} {s : HunkifyState}
    (hp : p < D.length) (hs : MasterInv D c p s) :
    MasterInv D c (p + 1) (hunkifyStep D c s p) := by
  obtain ⟨hleft, hright, hpan, hruns⟩ := hs
  cases hline : D[p] with
  | Left s0 =>
    have hchange : changeAt D p = true := changeAt_of_getElem hp (by rw [hline]; rfl)
    have hkeep : keepAt D c p = true := keepAt_of_changeAt hchange
    have e1 : s.left_line_number + 1 = leftCount (D.take (p + 1)) := by
      rw [leftCount_take_succ hp, hline, hleft]
      simp [is_left_line]
    have e2 : s.right_line_number = rightCount (D.take (p + 1)) := by
      rw [rightCount_take_succ hp, hline, hright]
      simp [is_right_line]
    rcases hcur : s.current_hunk with _ | ⟨l, r, ops⟩
    · have hstep : hunkifyStep D c s p =
          { hunks := s.hunks, left_line_number := s.left_line_number + 1,
            right_line_number := s.right_line_number,
            current_hunk := some (s.left_line_number + 1, s.right_line_number,
              [DiffRes.Left s0]),
            panicked := false } := by
        unfold hunkifyStep
        rw [hpan, List.getElem?_eq_getElem hp, hline, hcur]
        rfl
      rw [hstep]
      refine ⟨e1, e2, rfl, ?_⟩
      show RunsInv D c (p + 1) s.hunks
        (some (s.left_line_number + 1, s.right_line_number, [DiffRes.Left s0]))
      rw [e1, e2, ← hline]
      exact RunsInv_open hp hkeep (hcur ▸ hruns)
    · have hstep : hunkifyStep D c s p =
          { hunks := s.hunks, left_line_number := s.left_line_number + 1,
            right_line_number := s.right_line_number,
            current_hunk := some (l, r, ops ++ [DiffRes.Left s0]),
            panicked := false } := by
        unfold hunkifyStep
        rw [hpan, List.getElem?_eq_getElem hp, hline, hcur]
        rfl
      rw [hstep]
      refine ⟨e1, e2, rfl, ?_⟩
      show RunsInv D c (p + 1) s.hunks (some (l, r, ops ++ [DiffRes.Left s0]))
      rw [← hline]
      exact RunsInv_cont hp hkeep (hcur ▸ hruns)
  | Right s0 =>
    have hchange : changeAt D p = true := changeAt_of_getElem hp (by rw [hline]; rfl)
    have hkeep : keepAt D c p = true := keepAt_of_changeAt hchange
    have e1 : s.left_line_number = leftCount (D.take (p + 1)) := by
      rw [leftCount_take_succ hp, hline, hleft]
      simp [is_left_line]
    have e2 : s.right_line_number + 1 = rightCount (D.take (p + 1)) := by
      rw [rightCount_take_succ hp, hline, hright]
      simp [is_right_line]
    rcases hcur : s.current_hunk with _ | ⟨l, r, ops⟩
    · have hstep : hunkifyStep D c s p =
          { hunks := s.hunks, left_line_number := s.left_line_number,
            right_line_number := s.right_line_number + 1,
            current_hunk := some (s.left_line_number, s.right_line_number + 1,
              [DiffRes.Right s0]),
            panicked := false } := by
        unfold hunkifyStep
        rw [hpan, List.getElem?_eq_getElem hp, hline, hcur]
        rfl
      rw [hstep]
      refine ⟨e1, e2, rfl, ?_⟩
      show RunsInv D c (p + 1) s.hunks
        (some (s.left_line_number, s.right_line_number + 1, [DiffRes.Right s0]))
      rw [e1, e2, ← hline]
      exact RunsInv_open hp hkeep (hcur ▸ hruns)
    · have hstep : hunkifyStep D c s p =
          { hunks := s.hunks, left_line_number := s.left_line_number,
            right_line_number := s.right_line_number + 1,
            current_hunk := some (l, r, ops ++ [DiffRes.Right s0]),
            panicked := false } := by
        unfold hunkifyStep
        rw [hpan, List.getElem?_eq_getElem hp, hline, hcur]
        rfl
      rw [hstep]
      refine ⟨e1, e2, rfl, ?_⟩
      show RunsInv D c (p + 1) s.hunks (some (l, r, ops ++ [DiffRes.Right s0]))
      rw [← hline]
      exact RunsInv_cont hp hkeep (hcur ▸ hruns)
  | Both s0 t0 =>
    have e1 : s.left_line_number + 1 = leftCount (D.take (p + 1)) := by
      rw [leftCount_take_succ hp, hline, hleft]
      simp [is_left_line]
    have e2 : s.right_line_number + 1 = rightCount (D.take (p + 1)) := by
      rw [rightCount_take_succ hp, hline, hright]
      simp [is_right_line]
    by_cases hfwd : ((D.drop p).take (c + 1)).any is_different = true
    · have hkeep : keepAt D c p = true := by
        unfold keepAt
        rw [hfwd]
        rfl
      rcases hcur : s.current_hunk with _ | ⟨l, r, ops⟩
      · have hstep : hunkifyStep D c s p =
            { hunks := s.hunks, left_line_number := s.left_line_number + 1,
              right_line_number := s.right_line_number + 1,
              current_hunk := some (s.left_line_number + 1, s.right_line_number + 1,
                [DiffRes.Both s0 t0]),
              panicked := false } := by
          unfold hunkifyStep
          rw [hpan, List.getElem?_eq_getElem hp, hline, hcur, hfwd]
          rfl
        rw [hstep]
        refine ⟨e1, e2, rfl, ?_⟩
        show RunsInv D c (p + 1) s.hunks
          (some (s.left_line_number + 1, s.right_line_number + 1, [DiffRes.Both s0 t0]))
        rw [e1, e2, ← hline]
        exact RunsInv_open hp hkeep (hcur ▸ hruns)
      · have hstep : hunkifyStep D c s p =
            { hunks := s.hunks, left_line_number := s.left_line_number + 1,
              right_line_number := s.right_line_number + 1,
              current_hunk := some (l, r, ops ++ [DiffRes.Both s0 t0]),
              panicked := false } := by
          unfold hunkifyStep
          rw [hpan, List.getElem?_eq_getElem hp, hline, hcur, hfwd]
          rfl
        rw [hstep]
        refine ⟨e1, e2, rfl, ?_⟩
        show RunsInv D c (p + 1) s.hunks (some (l, r, ops ++ [DiffRes.Both s0 t0]))
        rw [← hline]
        exact RunsInv_cont hp hkeep (hcur ▸ hruns)
    · have hfwd2 : ((D.drop p).take (c + 1)).any is_different = false :=
        Bool.eq_false_iff.mpr hfwd
      by_cases hback : ((D.take p).drop (p - c)).any is_different = true
      · have hkeep : keepAt D c p = true := by
          unfold keepAt
          rw [hback]
          simp
        rcases hcur : s.current_hunk with _ | ⟨l, r, ops⟩
        · exact (RunsInv_backward_none hback (hcur ▸ hruns)).elim
        · have hstep : hunkifyStep D c s p =
              { hunks := s.hunks, left_line_number := s.left_line_number + 1,
                right_line_number := s.right_line_number + 1,
                current_hunk := some (l, r, ops ++ [DiffRes.Both s0 t0]),
                panicked := false } := by
            unfold hunkifyStep
            rw [hpan, List.getElem?_eq_getElem hp, hline, hcur, hfwd2, hback]
            rfl
          rw [hstep]
          refine ⟨e1, e2, rfl, ?_⟩
          show RunsInv D c (p + 1) s.hunks (some (l, r, ops ++ [DiffRes.Both s0 t0]))
          rw [← hline]
          exact RunsInv_cont hp hkeep (hcur ▸ hruns)
      · have hback2 : ((D.take p).drop (p - c)).any is_different = false :=
          Bool.eq_false_iff.mpr hback
        have hkeep : keepAt D c p = false := by
          unfold keepAt
          rw [hfwd2, hback2]
          rfl
        rcases hcur : s.current_hunk with _ | ⟨l, r, ops⟩
        · have hstep : hunkifyStep D c s p =
              { hunks := s.hunks, left_line_number := s.left_line_number + 1,
                right_line_number := s.right_line_number + 1,
                current_hunk := none,
                panicked := false } := by
            unfold hunkifyStep
            rw [hpan, List.getElem?_eq_getElem hp, hline, hcur, hfwd2, hback2]
            rfl
          rw [hstep]
          refine ⟨e1, e2, rfl, ?_⟩
          show RunsInv D c (p + 1) s.hunks none
          have hres := RunsInv_drop hkeep (hcur ▸ hruns)
          simpa using hres
        · have hstep : hunkifyStep D c s p =
              { hunks := s.hunks ++ [(l, r, ops)],
                left_line_number := s.left_line_number + 1,
                right_line_number := s.right_line_number + 1,
                current_hunk := none,
                panicked := false } := by
            unfold hunkifyStep
            rw [hpan, List.getElem?_eq_getElem hp, hline, hcur, hfwd2, hback2]
            rfl
          rw [hstep]
          refine ⟨e1, e2, rfl, ?_⟩
          show RunsInv D c (p + 1) (s.hunks ++ [(l, r, ops)]) none
          exact RunsInv_drop hkeep (hcur ▸ hruns)

theorem masterInv_zero (D : Diff) (c : Nat) : MasterInv D c 0 initHunkifyState := by
  refine ⟨by simp [initHunkifyState, leftCount], by simp [initHunkifyState, rightCount],
    rfl, [], ?_, ?_, ?_, ?_, ?_⟩
  · simp [runsJoin, keptIdxUpTo]
  · exact List.Pairwise.nil
  · intro qr hqr
    cases hqr
  · simp [countStarts]
  · left
    exact ⟨rfl, rfl, fun qr hqr => by cases hqr⟩

theorem masterInv_all (D : Diff) (c : Nat) :
    ∀ p, p ≤ D.length →
      MasterInv D c p ((List.range p).foldl (hunkifyStep D c) initHunkifyState)
  | 0, _ => by
      simpa using masterInv_zero D c
  | p + 1, h => by
      rw [loopState_succ]
      exact masterInv_step (by omega) (masterInv_all D c p (by omega))

/-- The run description of the final result of `hunkify_diff`: the hunks are
exactly the hunks of the maximal runs of consecutive retained positions, in
order, and there are as many hunks as hunk-opening positions. -/
theorem hunkify_master (D : Diff) (c : Nat) :
    ∃ runs : List (Nat × Nat),
      hunkify_diff D c = runs.map (hunkFor D) ∧
      runsJoin runs = keptIdxUpTo D c D.length ∧
      List.Pairwise (fun a b => a.2 + 1 < b.1) runs ∧
      (∀ qr ∈ runs, qr.1 ≤ qr.2 ∧ qr.2 < D.length) ∧
      runs.length = countStarts D c D.length := by
  obtain ⟨_, _, _, runs, hjoin, hpair, hbounds, hlen, hdisj⟩ :=
    masterInv_all D c D.length (le_refl _)
  refine ⟨runs, ?_, hjoin, hpair, hbounds, hlen⟩
  unfold hunkify_diff hunkifyLoopState
  rcases hdisj with ⟨hnone, hhunks, _⟩ | ⟨runs', q, hreq, _, hcur, hhunks⟩
  · rw [hnone]
    exact hhunks
  · rw [hcur, hhunks, hreq, List.map_append]
    rfl

theorem joinOps_cons (h : Hunk) (hs : List Hunk) :
    joinOps (h :: hs) = h.2.2 ++ joinOps hs := by
  unfold joinOps
  simp

theorem drop_decomp {α : Type} (D : List α) {t m : Nat} (ht : t ≤ m)
    (hm : m ≤ D.length) : D.drop t = (D.take m).drop t ++ D.drop m := by
  conv_lhs => rw [← List.take_append_drop m D]
  rw [List.drop_append_of_le_length]
  rw [List.length_take]
  omega

/-- The operations of the hunks of a gap-separated family of runs, all lying
at positions at or after `t` and covering every change at or after `t`, form
a subsequence of the tail of the diff from `t` on, and retain exactly its
changes. -/
theorem runs_join_sublist_filter (D : Diff) :
    ∀ (runs : List (Nat × Nat)) (t : Nat),
      List.Pairwise (fun a b => a.2 + 1 < b.1) runs →
      (∀ qr ∈ runs, qr.1 ≤ qr.2 ∧ qr.2 < D.length) →
      (∀ qr ∈ runs, t ≤ qr.1) →
      (∀ j, t ≤ j → changeAt D j = true → ∃ qr ∈ runs, qr.1 ≤ j ∧ j ≤ qr.2) →
      List.Sublist (joinOps (runs.map (hunkFor D))) (D.drop t) ∧
      (joinOps (runs.map (hunkFor D))).filter is_different =
        (D.drop t).filter is_different
  | [], t, _, _, _, hcov => by
      have hnone : (D.drop t).filter is_different = [] := by
        rw [List.filter_eq_nil_iff]
        intro a ha
        by_contra hda
        rw [List.mem_iff_getElem?] at ha
        obtain ⟨k, hk⟩ := ha
        rw [List.getElem?_drop] at hk
        have hch : changeAt D (t + k) = true := by
          unfold changeAt
          rw [hk]
          exact hda
        obtain ⟨qr, hqr, _, _⟩ := hcov (t + k) (by omega) hch
        cases hqr
      constructor
      · simp [joinOps]
      · rw [hnone]
        simp [joinOps]
  | (q, r) :: rest, t, hpair, hbounds, hstarts, hcov => by
      have hqr := hbounds (q, r) (by simp)
      have hq : q ≤ r := hqr.1
      have hr : r < D.length := hqr.2
      have ht : t ≤ q := hstarts (q, r) (by simp)
      rw [List.pairwise_cons] at hpair
      obtain ⟨hhead, hpair2⟩ := hpair
      have ih := runs_join_sublist_filter D rest (r + 1) hpair2
        (fun qr hqr => hbounds qr (List.mem_cons_of_mem _ hqr))
        (fun qr hqr => by have := hhead qr hqr; omega)
        (fun j hj hch => by
          obtain ⟨qr, hqr2, h1, h2⟩ := hcov j (by omega) hch
          rcases List.mem_cons.mp hqr2 with heq | hin
          · subst heq
            exact absurd h2 (by omega)
          · exact ⟨qr, hin, h1, h2⟩)
      have hseg : ((D.take q).drop t).filter is_different = [] := by
        rw [List.filter_eq_nil_iff]
        intro a ha
        by_contra hda
        have hany : ((D.take q).drop t).any is_different = true :=
          List.any_eq_true.mpr ⟨a, ha, hda⟩
        rw [any_take_drop_iff] at hany
        obtain ⟨j, hj1, hj2, hj3⟩ := hany
        obtain ⟨qr, hqr2, h1, h2⟩ := hcov j hj1 hj3
        rcases List.mem_cons.mp hqr2 with heq | hin
        · subst heq
          have : q ≤ j := h1
          omega
        · have := hhead qr hin
          omega
      have hdec1 : D.drop t = (D.take q).drop t ++ D.drop q :=
        drop_decomp D ht (by omega)
      have hdec2 : D.drop q = (D.take (r + 1)).drop q ++ D.drop (r + 1) :=
        drop_decomp D (by omega) (by omega)
      have hops : (hunkFor D (q, r)).2.2 = (D.take (r + 1)).drop q := rfl
      constructor
      · rw [List.map_cons, joinOps_cons, hops, hdec1, hdec2]
        have hstep1 : List.Sublist
            ((D.take (r + 1)).drop q ++ joinOps (rest.map (hunkFor D)))
            ((D.take (r + 1)).drop q ++ D.drop (r + 1)) :=
          List.Sublist.append (List.Sublist.refl _) ih.1
        have hstep2 : List.Sublist
            ((D.take (r + 1)).drop q ++ D.drop (r + 1))
            ((D.take q).drop t ++ ((D.take (r + 1)).drop q ++ D.drop (r + 1))) :=
          List.sublist_append_right _ _
        exact hstep1.trans hstep2
      · rw [List.map_cons, joinOps_cons, List.filter_append, hops, hdec1, hdec2,
          List.filter_append, List.filter_append, hseg, ih.2]
        simp

/-- The concatenated hunk operations of `hunkify_diff` are a subsequence of
the diff and retain exactly its changed operations. -/
theorem hunkify_sub_filter (D : Diff) (c : Nat) :
    List.Sublist (joinOps (hunkify_diff D c)) D ∧
    (joinOps (hunkify_diff D c)).filter is_different = D.filter is_different := by
  obtain ⟨runs, heq, hjoin, hpair, hbounds, _⟩ := hunkify_master D c
  have hcov : ∀ j, 0 ≤ j → changeAt D j = true → ∃ qr ∈ runs, qr.1 ≤ j ∧ j ≤ qr.2 := by
    intro j _ hch
    have hj : j < D.length := changeAt_lt_length hch
    have hk : keepAt D c j = true := keepAt_of_changeAt hch
    have hmem : j ∈ keptIdxUpTo D c D.length := mem_keptIdxUpTo.mpr ⟨hj, hk⟩
    rw [← hjoin] at hmem
    exact mem_runsJoin.mp hmem
  have h := runs_join_sublist_filter D runs 0 hpair hbounds
    (fun qr _ => Nat.zero_le _) hcov
  rw [heq]
  simpa using h

/-! Machinery for the monotonicity of the hunk count in the context size:
every hunk-opening position at context `c2` is sent, injectively, to a
hunk-opening position at a smaller context `c1` — namely the first position
at or after it that is retained at context `c1`. -/

theorem findIdxFromAux_ge (f : Nat → Bool) :
    ∀ fuel p, p ≤ findIdxFromAux f fuel p
  | 0, p => le_refl p
  | fuel + 1, p => by
      unfold findIdxFromAux
      by_cases h : f p = true
      · rw [if_pos h]
      · rw [if_neg h]
        have := findIdxFromAux_ge f fuel (p + 1)
        omega

theorem findIdxFromAux_spec (f : Nat → Bool) :
    ∀ fuel p j, p ≤ j → j < p + fuel → f j = true →
      findIdxFromAux f fuel p ≤ j ∧ f (findIdxFromAux f fuel p) = true ∧
      (∀ k, p ≤ k → k < findIdxFromAux f fuel p → f k = false)
  | 0, p, j, hpj, hj, _ => absurd hj (by omega)
  | fuel + 1, p, j, hpj, hj, hf => by
      unfold findIdxFromAux
      by_cases h : f p = true
      · rw [if_pos h]
        exact ⟨hpj, h, fun k hk1 hk2 => absurd hk2 (by omega)⟩
      · rw [if_neg h]
        have hpj2 : p + 1 ≤ j := by
          rcases Nat.eq_or_lt_of_le hpj with he | hl
          · rw [← he] at hf
            exact absurd hf h
          · omega
        have ih := findIdxFromAux_spec f fuel (p + 1) j hpj2 (by omega) hf
        refine ⟨ih.1, ih.2.1, ?_⟩
        intro k hk1 hk2
        rcases Nat.eq_or_lt_of_le hk1 with he | hl
        · rw [← he]
          exact Bool.eq_false_iff.mpr h
        · exact ih.2.2 k (by omega) hk2

theorem findIdxFrom_ge (f : Nat → Bool) (bound p : Nat) :
    p ≤ findIdxFrom f bound p :=
  findIdxFromAux_ge f (bound - p) p

theorem findIdxFrom_spec (f : Nat → Bool) {bound p j : Nat} (hpj : p ≤ j)
    (hj : j < bound) (hf : f j = true) :
    findIdxFrom f bound p ≤ j ∧ f (findIdxFrom f bound p) = true ∧
    (∀ k, p ≤ k → k < findIdxFrom f bound p → f k = false) :=
  findIdxFromAux_spec f (bound - p) p j hpj (by omega) hf

/-- A hunk-opening position has a change within the forward window, and the
whole stretch up to that change is retained. -/
theorem isStart_forward_change {D : Diff} {c p : Nat}
    (hstart : isStart D c p = true) :
    ∃ j, p ≤ j ∧ j ≤ p + c ∧ changeAt D j = true ∧
      (∀ x, p ≤ x → x ≤ j → keepAt D c x = true) := by
  have hks : keepAt D c p = true ∧ (p = 0 ∨ keepAt D c (p - 1) = false) := by
    unfold isStart at hstart
    rw [Bool.and_eq_true] at hstart
    refine ⟨hstart.1, ?_⟩
    have hor := hstart.2
    rw [Bool.or_eq_true] at hor
    rcases hor with h | h
    · exact Or.inl (of_decide_eq_true h)
    · right
      rwa [Bool.not_eq_true'] at h
  obtain ⟨hkp, hprev⟩ := hks
  rw [keepAt_iff] at hkp
  rcases hkp with ⟨j, h1, h2, h3⟩ | ⟨j, h1, h2, h3⟩
  · refine ⟨j, h1, by omega, h3, ?_⟩
    intro x hx1 hx2
    exact keepAt_forward hx2 (by omega) h3
  · exfalso
    have hpk : keepAt D c (p - 1) = true := by
      rcases Nat.lt_or_ge j (p - 1) with hj | hj
      · rw [keepAt_iff]
        exact Or.inr ⟨j, by omega, hj, h3⟩
      · have hje : j = p - 1 := by omega
        rw [hje] at h3
        exact keepAt_of_changeAt h3
    rcases hprev with h0 | hf
    · omega
    · rw [hpk] at hf
      exact Bool.noConfusion hf

theorem start_collision_aux (D : Diff) {c1 c2 : Nat} {p1 p2 : Nat}
    (h1 : isStart D c2 p1 = true) (h2 : isStart D c2 p2 = true)
    (hlt : p1 < p2)
    (heq : findIdxFrom (keepAt D c1) D.length p1 =
      findIdxFrom (keepAt D c1) D.length p2) :
    False := by
  obtain ⟨j1, hj1a, hj1b, hj1c, hint⟩ := isStart_forward_change h1
  have hj1len : j1 < D.length := changeAt_lt_length hj1c
  have hp2prev : keepAt D c2 (p2 - 1) = false := by
    unfold isStart at h2
    rw [Bool.and_eq_true] at h2
    have hor := h2.2
    rw [Bool.or_eq_true] at hor
    rcases hor with h0 | hkf
    · exact absurd (of_decide_eq_true h0) (by omega)
    · rwa [Bool.not_eq_true'] at hkf
  have hj1p2 : j1 < p2 := by
    by_contra hge
    rw [Nat.not_lt] at hge
    have hk := hint (p2 - 1) (by omega) (by omega)
    rw [hp2prev] at hk
    exact Bool.noConfusion hk
  have hkept1 : keepAt D c1 j1 = true := keepAt_of_changeAt hj1c
  have hm := findIdxFrom_spec (keepAt D c1) hj1a hj1len hkept1
  have hge2 := findIdxFrom_ge (keepAt D c1) D.length p2
  rw [← heq] at hge2
  have := hm.1
  omega

theorem countStarts_anti (D : Diff) {c1 c2 : Nat} (hc : c1 ≤ c2) :
    countStarts D c2 D.length ≤ countStarts D c1 D.length := by
  unfold countStarts
  apply Finset.card_le_card_of_injOn
    (fun p => findIdxFrom (keepAt D c1) D.length p)
  · intro p hp
    rw [Finset.mem_filter, Finset.mem_range] at hp
    obtain ⟨hplen, hstart⟩ := hp
    obtain ⟨j, hj1, hj2, hj3, hint⟩ := isStart_forward_change hstart
    have hjlen : j < D.length := changeAt_lt_length hj3
    have hkept1 : keepAt D c1 j = true := keepAt_of_changeAt hj3
    obtain ⟨hm1, hm2, hm3⟩ := findIdxFrom_spec (keepAt D c1) hj1 hjlen hkept1
    have hge := findIdxFrom_ge (keepAt D c1) D.length p
    rw [Finset.mem_filter, Finset.mem_range]
    refine ⟨by omega, ?_⟩
    unfold isStart
    rw [hm2]
    rcases Nat.eq_or_lt_of_le hge with he | hl
    · unfold isStart at hstart
      rw [Bool.and_eq_true] at hstart
      have hor := hstart.2
      rw [Bool.or_eq_true] at hor
      rcases hor with h0 | hkf
      · have hz : p = 0 := of_decide_eq_true h0
        rw [← he, hz]
        simp
      · rw [Bool.not_eq_true'] at hkf
        have hk1 : keepAt D c1 (p - 1) = false := by
          by_contra hcc
          rw [Bool.not_eq_false] at hcc
          have hmono := keepAt_mono hc hcc
          rw [hkf] at hmono
          exact Bool.noConfusion hmono
        rw [← he, hk1]
        simp
    · have hk1 : keepAt D c1 (findIdxFrom (keepAt D c1) D.length p - 1) = false :=
        hm3 _ (by omega) (by omega)
      rw [hk1]
      simp
  · intro p1 hp1 p2 hp2 heq
    rw [Finset.coe_filter, Set.mem_setOf_eq, Finset.mem_range] at hp1 hp2
    rcases Nat.lt_trichotomy p1 p2 with hlt | he | hlt
    · exact (start_collision_aux D hp1.2 hp2.2 hlt heq).elim
    · exact he
    · exact (start_collision_aux D hp2.2 hp1.2 hlt heq.symm).elim

theorem hunkify_ops_total (D : Diff) (c : Nat) :
    (joinOps (hunkify_diff D c)).length = (keptIdxUpTo D c D.length).length := by
  obtain ⟨runs, heq, hjoin, _, hbounds, _⟩ := hunkify_master D c
  rw [heq, ← hjoin]
  unfold joinOps runsJoin
  rw [List.flatMap_def, List.length_flatten, List.length_flatten,
    List.map_map, List.map_map, List.map_map]
  congr 1
  apply List.map_congr_left
  intro qr hqr
  have hb := hbounds qr hqr
  show ((hunkFor D qr).2.2).length = (List.range' qr.1 (qr.2 + 1 - qr.1)).length
  unfold hunkFor
  rw [List.length_range', List.length_drop, List.length_take]
  omega

theorem keptIdx_length_mono (D : Diff) {c1 c2 : Nat} (hc : c1 ≤ c2) :
    (keptIdxUpTo D c1 D.length).length ≤ (keptIdxUpTo D c2 D.length).length := by
  unfold keptIdxUpTo
  rw [← List.countP_eq_length_filter, ← List.countP_eq_length_filter]
  exact List.countP_mono_left (fun p _ hp => keepAt_mono hc hp)

theorem hunkify_length_eq_countStarts (D : Diff) (c : Nat) :
    (hunkify_diff D c).length = countStarts D c D.length := by
  obtain ⟨runs, heq, _, _, _, hlen⟩ := hunkify_master D c
  rw [heq, List.length_map, hlen]

/-- C1: for every diff `D` and context size `c`, every operation of `D` that
is not `Unchanged` appears in exactly one hunk of `hunkify_diff D c`: the
concatenation of all hunks' operation sequences retains exactly the changed
operations of `D`, occurrence for occurrence and in order (so each
`Removed`/`Added` occurrence is carried by precisely one hunk), and the
number of changed operations of `D` equals the sum over the hunks of their
changed-operation counts. -/
theorem c1_changes_in_exactly_one_hunk (D : Diff) (c : Nat) :
    (joinOps (hunkify_diff D c)).filter is_different = D.filter is_different ∧
    ((hunkify_diff D c).map (fun h => h.2.2.countP is_different)).sum =
      D.countP is_different := by
  have h := hunkify_sub_filter D c
  refine ⟨h.2, ?_⟩
  have h2 : (joinOps (hunkify_diff D c)).countP is_different =
      D.countP is_different := by
    rw [List.countP_eq_length_filter, List.countP_eq_length_filter, h.2]
  rw [← h2]
  unfold joinOps
  rw [List.countP_flatten, List.map_map]
  rfl

/-- C2: for every diff `D` and context size `c`, the hunks of
`hunkify_diff D c` are the images of pairwise disjoint index runs of `D`,
ordered by strictly increasing start position, and the concatenation of all
hunks' operation sequences is a subsequence of `D` (it preserves the relative
order of the operations of `D`). -/
theorem c2_hunks_disjoint_ordered_subsequence (D : Diff) (c : Nat) :
    List.Sublist (joinOps (hunkify_diff D c)) D ∧
    ∃ runs : List (Nat × Nat),
      hunkify_diff D c = runs.map (hunkFor D) ∧
      (∀ qr ∈ runs, qr.1 ≤ qr.2 ∧ qr.2 < D.length) ∧
      List.Pairwise (fun a b => a.2 < b.1) runs := by
  refine ⟨(hunkify_sub_filter D c).1, ?_⟩
  obtain ⟨runs, heq, _, hpair, hbounds, _⟩ := hunkify_master D c
  exact ⟨runs, heq, hbounds, hpair.imp (fun hab => by omega)⟩

/-- C3: on the spec's worked example, context 1 yields exactly the two hunks
`[Unchanged "a", Removed "b", Unchanged "c"]` and `[Unchanged "e", Added "f"]`
with `Unchanged "d"` in neither, and context 2 yields a single hunk holding
all six operations in order. -/
theorem c3_example_scenario :
    (hunkify_diff exampleDiff 1).map (fun h => h.2.2) =
      [[DiffRes.Both "a" "a", DiffRes.Left "b", DiffRes.Both "c" "c"],
       [DiffRes.Both "e" "e", DiffRes.Right "f"]] ∧
    (∀ h ∈ hunkify_diff exampleDiff 1, ¬ (DiffRes.Both "d" "d") ∈ h.2.2) ∧
    (hunkify_diff exampleDiff 2).map (fun h => h.2.2) = [exampleDiff] := by
  decide

/-- C4: for every diff and context sizes `c1 ≤ c2`, the total number of
operations retained across all hunks at context `c2` is at least that at
`c1`, and the number of hunks at context `c2` is at most that at `c1`. -/
theorem c4_context_monotone (D : Diff) (c1 c2 : Nat) (hc : c1 ≤ c2) :
    (joinOps (hunkify_diff D c1)).length ≤ (joinOps (hunkify_diff D c2)).length ∧
    (hunkify_diff D c2).length ≤ (hunkify_diff D c1).length := by
  constructor
  · rw [hunkify_ops_total, hunkify_ops_total]
    exact keptIdx_length_mono D hc
  · rw [hunkify_length_eq_countStarts, hunkify_length_eq_countStarts]
    exact countStarts_anti D hc

/-- Witness for C4 at the worked example with contexts 1 and 2. -/
theorem c4_context_monotone_witness :
    (1 : Nat) ≤ 2 ∧
    ((joinOps (hunkify_diff exampleDiff 1)).length ≤
        (joinOps (hunkify_diff exampleDiff 2)).length ∧
      (hunkify_diff exampleDiff 2).length ≤ (hunkify_diff exampleDiff 1).length) :=
  ⟨by decide, c4_context_monotone exampleDiff 1 2 (by decide)⟩

/-- C5 counterexample: on `D = [Removed "b"]` with context 0, the single hunk
has its first operation at source position 0, so zero lines of the left
document and zero lines of the right document precede it; yet the stored
anchors are `(1, 0)`, not `(0, 0)` — `start_left` is the line count
including the first operation's own increment, not the count preceding it.
So the claim fails for the side(s) that the hunk's first operation
increments. -/
theorem c5_counterexample :
    hunkify_diff [DiffRes.Left "b"] 0 = [(1, 0, [DiffRes.Left "b"])] ∧
    leftCount (List.take 0 [DiffRes.Left "b"]) = 0 ∧
    rightCount (List.take 0 [DiffRes.Left "b"]) = 0 ∧
    ((1 : Nat), (0 : Nat)) ≠
      (leftCount (List.take 0 [DiffRes.Left "b"]),
       rightCount (List.take 0 [DiffRes.Left "b"])) := by
  refine ⟨by decide, by decide, by decide, by decide⟩

/-- C5 (amended): every hunk of `hunkify_diff D c` covers a source index run
`q..r` of `D`; its operations are exactly the slice `D[q..=r]`, and its
anchors `start_left`/`start_right` are the counts of left/right lines among
the first `q + 1` operations of `D` — that is, the line counts up to and
including the hunk's first operation (the counters' values just after that
operation's own increments), for both sides and every kind of first
operation. -/
theorem c5_anchor_semantics (D : Diff) (c : Nat) :
    ∀ h ∈ hunkify_diff D c, ∃ q r, q ≤ r ∧ r < D.length ∧
      h.1 = leftCount (D.take (q + 1)) ∧
      h.2.1 = rightCount (D.take (q + 1)) ∧
      h.2.2 = (D.take (r + 1)).drop q := by
  intro h hmem
  obtain ⟨runs, heq, _, _, hbounds, _⟩ := hunkify_master D c
  rw [heq, List.mem_map] at hmem
  obtain ⟨qr, hqr, hh⟩ := hmem
  obtain ⟨h1, h2⟩ := hbounds qr hqr
  exact ⟨qr.1, qr.2, h1, h2, by rw [← hh]; rfl, by rw [← hh]; rfl, by rw [← hh]; rfl⟩

/-- Witness for the amended C5 on the one-hunk diff `[Removed "b"]`. -/
theorem c5_anchor_semantics_witness :
    (1, 0, [DiffRes.Left "b"]) ∈ hunkify_diff [DiffRes.Left "b"] 0 ∧
    (∃ q r, q ≤ r ∧ r < ([DiffRes.Left "b"] : Diff).length ∧
      ((1, 0, [DiffRes.Left "b"]) : Hunk).1 =
        leftCount (([DiffRes.Left "b"] : Diff).take (q + 1)) ∧
      ((1, 0, [DiffRes.Left "b"]) : Hunk).2.1 =
        rightCount (([DiffRes.Left "b"] : Diff).take (q + 1)) ∧
      ((1, 0, [DiffRes.Left "b"]) : Hunk).2.2 =
        (([DiffRes.Left "b"] : Diff).take (r + 1)).drop q) :=
  ⟨by decide, c5_anchor_semantics [DiffRes.Left "b"] 0 (1, 0, [DiffRes.Left "b"])
    (by decide)⟩

/-- C6: between any two consecutive hunks of `hunkify_diff D c` (presented
through the index runs the hunks are built from) there is a source position
strictly between the end of the first run and the start of the second whose
operation is `Unchanged` and which is not retained — an `Unchanged`
operation of `D` that was dropped and belongs to neither hunk. -/
theorem c6_dropped_between_hunks (D : Diff) (c : Nat) :
    ∃ runs : List (Nat × Nat),
      hunkify_diff D c = runs.map (hunkFor D) ∧
      ∀ i a b, runs[i]? = some a → runs[i + 1]? = some b →
        ∃ j s t, a.2 < j ∧ j < b.1 ∧ D[j]? = some (DiffRes.Both s t) ∧
          keepAt D c j = false := by
  obtain ⟨runs, heq, hjoin, hpair, hbounds, _⟩ := hunkify_master D c
  refine ⟨runs, heq, ?_⟩
  intro i a b ha hb
  obtain ⟨hia, haeq⟩ := List.getElem?_eq_some_iff.mp ha
  obtain ⟨hib, hbeq⟩ := List.getElem?_eq_some_iff.mp hb
  have hpg := List.pairwise_iff_getElem.mp hpair i (i + 1) hia hib (by omega)
  rw [haeq, hbeq] at hpg
  have hba := hbounds a (by rw [← haeq]; exact List.getElem_mem _)
  have hbb := hbounds b (by rw [← hbeq]; exact List.getElem_mem _)
  have hjlen : a.2 + 1 < D.length := by omega
  have hkeep : keepAt D c (a.2 + 1) = false := by
    by_contra hk
    rw [Bool.not_eq_false] at hk
    have hmem : a.2 + 1 ∈ keptIdxUpTo D c D.length :=
      mem_keptIdxUpTo.mpr ⟨hjlen, hk⟩
    rw [← hjoin] at hmem
    obtain ⟨qr, hqr, h1, h2⟩ := mem_runsJoin.mp hmem
    obtain ⟨k, hk2, hkeq⟩ := List.mem_iff_getElem.mp hqr
    have hqrk : runs[k]? = some qr := by
      rw [List.getElem?_eq_getElem hk2, hkeq]
    rcases Nat.lt_trichotomy k i with hki | hki | hki
    · have hrel := List.pairwise_iff_getElem.mp hpair k i hk2 hia hki
      rw [haeq, hkeq] at hrel
      have := hba.1
      omega
    · subst hki
      rw [ha] at hqrk
      injection hqrk with hinj
      rw [← hinj] at h2
      omega
    · rcases Nat.lt_or_ge k (i + 1 + 1) with hk3 | hk3
      · have hk4 : k = i + 1 := by omega
        subst hk4
        rw [hb] at hqrk
        injection hqrk with hinj
        rw [← hinj] at h1
        omega
      · have hrel := List.pairwise_iff_getElem.mp hpair (i + 1) k hib hk2 (by omega)
        rw [hbeq, hkeq] at hrel
        have := hbb.1
        omega
  cases hop : D[a.2 + 1]? with
  | none =>
    have := List.getElem?_eq_none_iff.mp hop
    omega
  | some op =>
    cases op with
    | Left s =>
      exfalso
      have hch : changeAt D (a.2 + 1) = true := by
        unfold changeAt
        rw [hop]
        rfl
      have := keepAt_of_changeAt (c := c) hch
      rw [hkeep] at this
      exact Bool.noConfusion this
    | Right s =>
      exfalso
      have hch : changeAt D (a.2 + 1) = true := by
        unfold changeAt
        rw [hop]
        rfl
      have := keepAt_of_changeAt (c := c) hch
      rw [hkeep] at this
      exact Bool.noConfusion this
    | Both s t =>
      exact ⟨a.2 + 1, s, t, by omega, by omega, hop, hkeep⟩

/-- C7: `diff_nonempty D` is `false` exactly when every operation of `D` is
`Unchanged`, and `true` exactly when some operation is `Removed` or
`Added`. -/
theorem c7_diff_nonempty_iff (D : Diff) :
    (diff_nonempty D = false ↔ ∀ op ∈ D, ∃ s t, op = DiffRes.Both s t) ∧
    (diff_nonempty D = true ↔
      ∃ op ∈ D, (∃ s, op = DiffRes.Left s) ∨ (∃ s, op = DiffRes.Right s)) := by
  induction D with
  | nil => simp [diff_nonempty]
  | cons op rest ih =>
    cases op with
    | Left s =>
      constructor
      · simp [diff_nonempty]
      · constructor
        · intro _
          exact ⟨DiffRes.Left s, List.mem_cons_self _ _, Or.inl ⟨s, rfl⟩⟩
        · intro _
          rfl
    | Right s =>
      constructor
      · simp [diff_nonempty]
      · constructor
        · intro _
          exact ⟨DiffRes.Right s, List.mem_cons_self _ _, Or.inr ⟨s, rfl⟩⟩
        · intro _
          rfl
    | Both s t =>
      have hstep : diff_nonempty (DiffRes.Both s t :: rest) = diff_nonempty rest := rfl
      constructor
      · rw [hstep, ih.1]
        constructor
        · intro hall op hop
          rcases List.mem_cons.mp hop with he | hin
          · exact he ▸ ⟨s, t, rfl⟩
          · exact hall op hin
        · intro hall op hop
          exact hall op (List.mem_cons_of_mem _ hop)
      · rw [hstep, ih.2]
        constructor
        · rintro ⟨op, hop, hkind⟩
          exact ⟨op, List.mem_cons_of_mem _ hop, hkind⟩
        · rintro ⟨op, hop, hkind⟩
          rcases List.mem_cons.mp hop with he | hin
          · rcases hkind with ⟨u, hu⟩ | ⟨u, hu⟩ <;> rw [he] at hu <;> cases hu
          · exact ⟨op, hin, hkind⟩

/-- C8: `generate_diff` fails with an `IoError` carrying the context of the
failing read when the source or the target file is unreadable (a missing
target yields the error of the target read), and with a `RenderError` when
template rendering fails; in each case the error of the failing step is
returned immediately — the result is that error, and no diff is produced. -/
theorem c8_generate_diff_error_propagation
    (read_to_string : String → Except String String)
    (render_template : String → Except String String)
    (lines : String → String → Diff)
    (template : TemplateDescription) :
    (∀ e, read_to_string template.source = Except.error e →
      generate_diff read_to_string render_template lines template =
        Except.error (DiffError.IoError "read template source file" e)) ∧
    (∀ contents e, read_to_string template.source = Except.ok contents →
      render_template (template.apply_actions contents) = Except.error e →
      generate_diff read_to_string render_template lines template =
        Except.error (DiffError.RenderError "render template" e)) ∧
    (∀ contents rendered e, read_to_string template.source = Except.ok contents →
      render_template (template.apply_actions contents) = Except.ok rendered →
      read_to_string template.target.target = Except.error e →
      generate_diff read_to_string render_template lines template =
        Except.error (DiffError.IoError "read template target file" e)) := by
  refine ⟨?_, ?_, ?_⟩
  · intro e he
    unfold generate_diff
    rw [he]
  · intro contents e h1 h2
    unfold generate_diff
    rw [h1]
    simp only []
    rw [h2]
  · intro contents rendered e h1 h2 h3
    unfold generate_diff
    rw [h1]
    simp only []
    rw [h2, h3]

/-- Witness for C8: concrete oracles where the source reads fine, rendering
succeeds, and the target file is missing; the result is the `IoError` of the
target read. -/
theorem c8_generate_diff_error_propagation_witness :
    (fun p => if p = "tgt" then (Except.error "no such file" : Except String String)
        else Except.ok "body") "src" = Except.ok "body" ∧
    (fun (s : String) => (Except.ok s : Except String String)) ("body") = Except.ok "body" ∧
    (fun p => if p = "tgt" then (Except.error "no such file" : Except String String)
        else Except.ok "body") "tgt" = Except.error "no such file" ∧
    generate_diff
      (fun p => if p = "tgt" then Except.error "no such file" else Except.ok "body")
      (fun s => Except.ok s) (fun _ _ => [])
      { source := "src", target := { target := "tgt" }, apply_actions := id } =
      Except.error (DiffError.IoError "read template target file" "no such file") := by
  refine ⟨rfl, rfl, rfl, ?_⟩
  exact (c8_generate_diff_error_propagation
    (fun p => if p = "tgt" then Except.error "no such file" else Except.ok "body")
    (fun s => Except.ok s) (fun _ _ => [])
    { source := "src", target := { target := "tgt" }, apply_actions := id }).2.2
    "body" "body" "no such file" rfl rfl rfl

/-- C9: when `print_diff` runs (the hunk list is non-empty), every recorded
`print_hunk` call uses the same column width, equal to the decimal digit
count of the final hunk's ending line number — the maximum of the final
hunk's two anchors plus the number of operations in that hunk. -/
theorem c9_print_diff_width (D : Diff) (c : Nat) (out : List (Hunk × Nat))
    (last : Hunk) (hout : print_diff D c = some out)
    (hlast : (hunkify_diff D c).getLast? = some last) :
    ∀ hw ∈ out, hw.2 = (Nat.repr (max last.1 last.2.1 + last.2.2.length)).length := by
  unfold print_diff at hout
  rw [hlast] at hout
  injection hout with hout
  intro hw hmem
  rw [← hout] at hmem
  rcases List.mem_append.mp hmem with hin | hin
  · rw [List.mem_map] at hin
    obtain ⟨hunk, _, hh⟩ := hin
    rw [← hh]
  · rw [List.mem_singleton] at hin
    rw [hin]

/-- Witness for C9 on the worked example at context 1: both hunks are
printed with width 1, the digit count of `max 5 4 + 2 = 7`. -/
theorem c9_print_diff_width_witness :
    print_diff exampleDiff 1 =
      some [((1, 1, [DiffRes.Both "a" "a", DiffRes.Left "b", DiffRes.Both "c" "c"]), 1),
        ((5, 4, [DiffRes.Both "e" "e", DiffRes.Right "f"]), 1)] ∧
    (hunkify_diff exampleDiff 1).getLast? =
      some (5, 4, [DiffRes.Both "e" "e", DiffRes.Right "f"]) ∧
    (((5, 4, [DiffRes.Both "e" "e", DiffRes.Right "f"]), 1) : Hunk × Nat).2 =
      (Nat.repr (max 5 4 + [DiffRes.Both "e" "e", DiffRes.Right "f"].length)).length :=
  ⟨by decide, by decide,
    c9_print_diff_width exampleDiff 1
      [((1, 1, [DiffRes.Both "a" "a", DiffRes.Left "b", DiffRes.Both "c" "c"]), 1),
        ((5, 4, [DiffRes.Both "e" "e", DiffRes.Right "f"]), 1)]
      (5, 4, [DiffRes.Both "e" "e", DiffRes.Right "f"])
      (by decide) (by decide)
      ((5, 4, [DiffRes.Both "e" "e", DiffRes.Right "f"]), 1) (by decide)⟩

/-- C10: the loop of `hunkify_diff` never reaches the backward-window branch
with no hunk in progress: the final loop state has the panic flag unset, and
since `hunkifyStep` freezes the state once the flag is set, the flag being
unset at the end means the unchecked `unwrap` in that branch never
panicked, for any diff and any context size. -/
theorem c10_backward_branch_never_panics (D : Diff) (c : Nat) :
    (hunkifyLoopState D c).panicked = false :=
  (masterInv_all D c D.length (le_refl _)).2.2.1
